import Mathlib

/-!
Verification of the line-frequency counter (`src/main.rs`).

The program reads lines from a file or standard input, counts occurrences of
each distinct line in a hash map, sorts the `(line, count)` pairs with a
composite comparator (`sort_counts`), and prints the first `top` entries,
watching a SIGPIPE flag while writing.

Shallow embedding choices:
* A Rust `String` line is modelled as `List Char` (`Line`): lines are compared
  exactly, character for character, as in the source.
* The hash map `HashMap<String, u64>` is modelled as an association list with
  unique keys (`countLines`); `*counter.entry(line).or_insert(0) += 1` is the
  `bump` operation.  Counts are `Nat`.
* `par_sort_unstable_by` is modelled as a comparison sort by the same
  comparator (`List.insertionSort`); the parallel-execution claims are settled
  by proving the comparator admits exactly one sorted permutation.
* The I/O behaviour of `main` is modelled by `runMain`, parameterised by the
  outcome of opening the input, the sequence of line reads, the outcome of
  each `writeln!` call, and the value of the SIGPIPE flag at each check.
-/

namespace CountProg

/-- A line of input: the character sequence of a Rust `String`
(newline already stripped by `lines()`). -/
abbrev Line := List Char

/-- An entry of the counts vector built from the frequency table:
`(&String, &u64)` in the source. -/
abbrev Entry := Line × Nat

/-- The `SortingOrder` arg-enum of the source. -/
inductive SortingOrder
  | Key
  | Count
  | None
deriving DecidableEq

/-! ## Frequency counter (`main`, lines 79-83) -/

/-- One iteration of the counting loop:
`*counter.entry(line).or_insert(0) += 1` on an association-list model of the
hash map.  If the key is present its count is incremented, otherwise the key
is inserted with count 1. -/
def bump {α : Type} [DecidableEq α] : List (α × Nat) → α → List (α × Nat)
  | [], l => [(l, 1)]
  | (k, c) :: rest, l =>
      if k = l then (k, c + 1) :: rest else (k, c) :: bump rest l

/-- The counting loop over a fully-read list of lines. -/
def countLines {α : Type} [DecidableEq α] (ls : List α) : List (α × Nat) :=
  ls.foldl bump []

/-- Lookup in the association-list model of the hash map
(`counter.get(key)`). -/
def findCount {α : Type} [DecidableEq α] : List (α × Nat) → α → Option Nat
  | [], _ => none
  | (k, c) :: rest, l => if k = l then some c else findCount rest l

/-- The frequency-table invariant of the counting loop: after consuming
`seen`, the total of all counts is the number of lines consumed, keys are
unique, and each key's count is the number of occurrences of that line. -/
def TableInv {α : Type} [DecidableEq α] (m : List (α × Nat)) (seen : List α) : Prop :=
  ((m.map Prod.snd).sum = seen.length) ∧
  (m.map Prod.fst).Nodup ∧
  ∀ l, findCount m l = if l ∈ seen then some (seen.count l) else none

section CountingLemmas

variable {α : Type} [DecidableEq α]

lemma sum_bump (m : List (α × Nat)) (l : α) :
    ((bump m l).map Prod.snd).sum = ((m.map Prod.snd).sum) + 1 := by
  induction m with
  | nil => simp [bump]
  | cons p rest ih =>
      obtain ⟨k, c⟩ := p
      by_cases h : k = l <;> simp [bump, h, ih] <;> omega

lemma findCount_bump (m : List (α × Nat)) (l x : α) :
    findCount (bump m l) x =
      if x = l then some ((findCount m l).getD 0 + 1) else findCount m x := by
  induction m with
  | nil =>
      by_cases h : x = l
      · subst h; simp [bump, findCount]
      · have h' : ¬ l = x := fun h' => h h'.symm
        simp [bump, findCount, h, h']
  | cons p rest ih =>
      obtain ⟨k, c⟩ := p
      by_cases hk : k = l
      · subst hk
        by_cases hx : k = x
        · subst hx
          simp [bump, findCount]
        · have hx' : ¬ x = k := fun h => hx h.symm
          simp [bump, findCount, hx, hx']
      · by_cases hx : k = x
        · subst hx
          simp [bump, findCount, hk]
        · simp [bump, findCount, hk, hx, ih]

lemma keys_bump_of_mem (m : List (α × Nat)) (l : α) (h : (findCount m l).isSome) :
    (bump m l).map Prod.fst = m.map Prod.fst := by
  induction m with
  | nil => simp [findCount] at h
  | cons p rest ih =>
      obtain ⟨k, c⟩ := p
      by_cases hk : k = l
      · simp [bump, hk]
      · simp [findCount, hk] at h
        simp [bump, hk, ih h]

lemma keys_bump_of_not_mem (m : List (α × Nat)) (l : α) (h : findCount m l = none) :
    (bump m l).map Prod.fst = m.map Prod.fst ++ [l] := by
  induction m with
  | nil => simp [bump]
  | cons p rest ih =>
      obtain ⟨k, c⟩ := p
      by_cases hk : k = l
      · simp [findCount, hk] at h
      · simp [findCount, hk] at h
        simp [bump, hk, ih h]

lemma mem_keys_iff_findCount (m : List (α × Nat)) (l : α) :
    l ∈ m.map Prod.fst ↔ (findCount m l).isSome := by
  induction m with
  | nil => simp [findCount]
  | cons p rest ih =>
      obtain ⟨k, c⟩ := p
      by_cases hk : k = l
      · subst hk
        simp [findCount]
      · have hlk : ¬ l = k := fun h => hk h.symm
        simp [findCount, hk, hlk, ih]

lemma tableInv_bump {m : List (α × Nat)} {seen : List α} (h : TableInv m seen)
    (l : α) : TableInv (bump m l) (seen ++ [l]) := by
  obtain ⟨hsum, hnodup, hfind⟩ := h
  refine ⟨?_, ?_, ?_⟩
  · simp [sum_bump, hsum]
  · by_cases hl : l ∈ seen
    · have : (findCount m l).isSome := by simp [hfind, hl]
      simp [keys_bump_of_mem m l this, hnodup]
    · have hnone : findCount m l = none := by simp [hfind, hl]
      have hnot : l ∉ m.map Prod.fst := by
        rw [mem_keys_iff_findCount, hnone]
        simp
      rw [keys_bump_of_not_mem m l hnone, List.nodup_append]
      refine ⟨hnodup, List.nodup_singleton l, ?_⟩
      intro a ha hal
      rw [List.mem_singleton] at hal
      exact hnot (hal ▸ ha)
  · intro x
    rw [findCount_bump]
    by_cases hx : x = l
    · subst hx
      by_cases hl : x ∈ seen
      · simp [hfind, hl, List.count_append, List.count_singleton, beq_iff_eq]
      · simp [hfind, hl, List.count_append, List.count_singleton, beq_iff_eq,
          List.count_eq_zero_of_not_mem hl]
    · have hlx : ¬ l = x := fun h => hx h.symm
      by_cases hs : x ∈ seen <;>
        simp [hfind, hx, hs, hlx, List.count_append, List.count_singleton,
          beq_iff_eq]

lemma tableInv_foldl (ls : List α) :
    ∀ (acc : List (α × Nat)) (seen : List α), TableInv acc seen →
      TableInv (ls.foldl bump acc) (seen ++ ls) := by
  induction ls with
  | nil => intro acc seen h; simpa using h
  | cons l rest ih =>
      intro acc seen h
      have h' := tableInv_bump h l
      have := ih (bump acc l) (seen ++ [l]) h'
      simpa using this

lemma tableInv_nil : TableInv ([] : List (α × Nat)) ([] : List α) := by
  refine ⟨by simp, by simp, ?_⟩
  intro l
  simp [findCount]

lemma countLines_tableInv (ls : List α) : TableInv (countLines ls) ls := by
  have := tableInv_foldl ls [] [] tableInv_nil
  simpa [countLines] using this

lemma countLines_keys_nodup (ls : List α) :
    ((countLines ls).map Prod.fst).Nodup :=
  (countLines_tableInv ls).2.1

end CountingLemmas

/-! ## Sorter (`sort_counts`, lines 54-64) -/

/-- Rust `Ord::cmp` on a totally ordered value (used at `String` and `u64`). -/
def cmpVal {α : Type} [LinearOrder α] (a b : α) : Ordering :=
  if a < b then .lt else if a = b then .eq else .gt

/-- The `Key` comparator of `sort_counts`:
`|a, b| a.0.cmp(b.0).then(a.1.cmp(b.1).reverse())`. -/
def cmp_key (a b : Entry) : Ordering :=
  (cmpVal a.1 b.1).then ((cmpVal a.2 b.2).swap)

/-- The `Count` comparator of `sort_counts`:
`|a, b| a.1.cmp(b.1).reverse().then(a.0.cmp(b.0))`. -/
def cmp_count (a b : Entry) : Ordering :=
  ((cmpVal a.2 b.2).swap).then (cmpVal a.1 b.1)

/-- The at-most relation induced by the `Key` comparator (an element may
precede another in the sorted result iff the comparator does not say
`Greater`). -/
def le_key (a b : Entry) : Prop := (cmp_key a b).isLE = true

/-- The at-most relation induced by the `Count` comparator. -/
def le_count (a b : Entry) : Prop := (cmp_count a b).isLE = true

instance : DecidableRel le_key :=
  fun a b => inferInstanceAs (Decidable ((cmp_key a b).isLE = true))

instance : DecidableRel le_count :=
  fun a b => inferInstanceAs (Decidable ((cmp_count a b).isLE = true))

/-- `fn sort_counts`: sorts the counts vector by the comparator selected by
the sorting order, and leaves it untouched for `None`.  The comparison sort
stands for `par_sort_unstable_by`; the parallel/unstable aspects are settled
by the uniqueness lemmas below. -/
def sort_counts (counts : List Entry) (sorting_order : SortingOrder) : List Entry :=
  match sorting_order with
  | .Key => counts.insertionSort le_key
  | .Count => counts.insertionSort le_count
  | .None => counts

section ComparatorLemmas

variable {α : Type} [LinearOrder α]

lemma cmpVal_eq_lt {a b : α} : cmpVal a b = .lt ↔ a < b := by
  unfold cmpVal
  split_ifs with h1 h2
  · simp [h1]
  · simp [h1]
  · simp [h1]

lemma cmpVal_eq_eq {a b : α} : cmpVal a b = .eq ↔ a = b := by
  unfold cmpVal
  split_ifs with h1 h2
  · simp [ne_of_lt h1]
  · simp [h2]
  · simp [h2]

lemma cmpVal_eq_gt {a b : α} : cmpVal a b = .gt ↔ b < a := by
  unfold cmpVal
  split_ifs with h1 h2
  · simp [lt_asymm h1]
  · subst h2
    simp [lt_irrefl]
  · simp [(lt_trichotomy a b).resolve_left h1 |>.resolve_left h2]

lemma cmpVal_swap (a b : α) : (cmpVal a b).swap = cmpVal b a := by
  rcases lt_trichotomy a b with h | h | h
  · rw [cmpVal_eq_lt.mpr h, show cmpVal b a = .gt from cmpVal_eq_gt.mpr h]
    rfl
  · subst h
    rw [cmpVal_eq_eq.mpr rfl]
    rfl
  · rw [cmpVal_eq_gt.mpr h, show cmpVal b a = .lt from cmpVal_eq_lt.mpr h]
    rfl

lemma cmpVal_isLE {a b : α} : (cmpVal a b).isLE = true ↔ a ≤ b := by
  unfold cmpVal
  split_ifs with h1 h2
  · simp [Ordering.isLE, le_of_lt h1]
  · simp [Ordering.isLE, le_of_eq h2]
  · have hba : b < a := (lt_trichotomy a b).resolve_left h1 |>.resolve_left h2
    simp [Ordering.isLE, not_le.mpr hba]

end ComparatorLemmas

lemma le_key_iff {a b : Entry} :
    le_key a b ↔ a.1 < b.1 ∨ (a.1 = b.1 ∧ b.2 ≤ a.2) := by
  unfold le_key cmp_key
  rcases lt_trichotomy a.1 b.1 with h | h | h
  · rw [cmpVal_eq_lt.mpr h]
    simp [Ordering.then, Ordering.isLE, h]
  · rw [cmpVal_eq_eq.mpr h, cmpVal_swap]
    simp only [Ordering.then]
    rw [cmpVal_isLE]
    simp [h, lt_irrefl]
  · rw [cmpVal_eq_gt.mpr h]
    simp [Ordering.then, Ordering.isLE, lt_asymm h, ne_of_gt h]

lemma le_count_iff {a b : Entry} :
    le_count a b ↔ b.2 < a.2 ∨ (a.2 = b.2 ∧ a.1 ≤ b.1) := by
  unfold le_count cmp_count
  rw [cmpVal_swap]
  rcases lt_trichotomy b.2 a.2 with h | h | h
  · rw [cmpVal_eq_lt.mpr h]
    simp [Ordering.then, Ordering.isLE, h]
  · rw [cmpVal_eq_eq.mpr h]
    simp only [Ordering.then]
    rw [cmpVal_isLE]
    simp [h.symm, lt_irrefl]
  · rw [cmpVal_eq_gt.mpr h]
    simp [Ordering.then, Ordering.isLE, lt_asymm h, ne_of_gt h, (ne_of_gt h).symm]

lemma le_key_total (a b : Entry) : le_key a b ∨ le_key b a := by
  rw [le_key_iff, le_key_iff]
  rcases lt_trichotomy a.1 b.1 with h | h | h
  · exact Or.inl (Or.inl h)
  · rcases le_total a.2 b.2 with h2 | h2
    · exact Or.inr (Or.inr ⟨h.symm, h2⟩)
    · exact Or.inl (Or.inr ⟨h, h2⟩)
  · exact Or.inr (Or.inl h)

lemma le_key_trans (a b c : Entry) : le_key a b → le_key b c → le_key a c := by
  rw [le_key_iff, le_key_iff, le_key_iff]
  rintro (h | ⟨he, hc⟩) (h' | ⟨he', hc'⟩)
  · exact Or.inl (lt_trans h h')
  · exact Or.inl (lt_of_lt_of_le h (le_of_eq he'))
  · exact Or.inl (lt_of_le_of_lt (le_of_eq he) h')
  · exact Or.inr ⟨he.trans he', le_trans hc' hc⟩

lemma le_key_antisymm (a b : Entry) : le_key a b → le_key b a → a = b := by
  rw [le_key_iff, le_key_iff]
  rintro (h | ⟨he, hc⟩) (h' | ⟨he', hc'⟩)
  · exact absurd h' (lt_asymm h)
  · exact absurd he' (ne_of_gt h)
  · exact absurd he (ne_of_gt h')
  · exact Prod.ext he (le_antisymm hc' hc)

lemma le_count_total (a b : Entry) : le_count a b ∨ le_count b a := by
  rw [le_count_iff, le_count_iff]
  rcases lt_trichotomy a.2 b.2 with h | h | h
  · exact Or.inr (Or.inl h)
  · rcases le_total a.1 b.1 with h1 | h1
    · exact Or.inl (Or.inr ⟨h, h1⟩)
    · exact Or.inr (Or.inr ⟨h.symm, h1⟩)
  · exact Or.inl (Or.inl h)

lemma le_count_trans (a b c : Entry) : le_count a b → le_count b c → le_count a c := by
  rw [le_count_iff, le_count_iff, le_count_iff]
  rintro (h | ⟨he, hl⟩) (h' | ⟨he', hl'⟩)
  · exact Or.inl (lt_trans h' h)
  · exact Or.inl (by omega)
  · exact Or.inl (by omega)
  · exact Or.inr ⟨he.trans he', le_trans hl hl'⟩

lemma le_count_antisymm (a b : Entry) : le_count a b → le_count b a → a = b := by
  rw [le_count_iff, le_count_iff]
  rintro (h | ⟨he, hl⟩) (h' | ⟨he', hl'⟩)
  · exact absurd h' (lt_asymm h)
  · exact absurd he' (ne_of_lt h)
  · exact absurd he (ne_of_lt h')
  · exact Prod.ext (le_antisymm hl hl') he

lemma sort_counts_perm (counts : List Entry) (o : SortingOrder) :
    (sort_counts counts o).Perm counts := by
  cases o with
  | Key => exact List.perm_insertionSort le_key counts
  | Count => exact List.perm_insertionSort le_count counts
  | None => exact List.Perm.refl counts

lemma sort_counts_key_sorted (counts : List Entry) :
    List.Pairwise le_key (sort_counts counts .Key) :=
  @List.sorted_insertionSort Entry le_key _ ⟨le_key_total⟩
    ⟨fun a b c => le_key_trans a b c⟩ counts

lemma sort_counts_count_sorted (counts : List Entry) :
    List.Pairwise le_count (sort_counts counts .Count) :=
  @List.sorted_insertionSort Entry le_count _ ⟨le_count_total⟩
    ⟨fun a b c => le_count_trans a b c⟩ counts

/-- The `Key` comparator admits at most one sorted arrangement of a given
collection of entries: any two comparator-sorted permutations are equal. -/
lemma sorted_key_unique {l l₁ l₂ : List Entry} (h₁ : l₁.Perm l) (h₂ : l₂.Perm l)
    (s₁ : List.Pairwise le_key l₁) (s₂ : List.Pairwise le_key l₂) : l₁ = l₂ :=
  @List.eq_of_perm_of_sorted Entry le_key ⟨le_key_antisymm⟩ l₁ l₂
    (h₁.trans h₂.symm) s₁ s₂

/-- Same for the `Count` comparator. -/
lemma sorted_count_unique {l l₁ l₂ : List Entry} (h₁ : l₁.Perm l) (h₂ : l₂.Perm l)
    (s₁ : List.Pairwise le_count l₁) (s₂ : List.Pairwise le_count l₂) : l₁ = l₂ :=
  @List.eq_of_perm_of_sorted Entry le_count ⟨le_count_antisymm⟩ l₁ l₂
    (h₁.trans h₂.symm) s₁ s₂

/-- The keys of the sorted counts vector are distinct whenever the keys of the
input vector are (as they are for a vector drawn from the frequency table). -/
lemma sort_counts_keys_nodup {counts : List Entry} (h : (counts.map Prod.fst).Nodup)
    (o : SortingOrder) : ((sort_counts counts o).map Prod.fst).Nodup :=
  (((sort_counts_perm counts o).map Prod.fst).symm).nodup h

lemma sort_counts_fst_ne {counts : List Entry} (h : (counts.map Prod.fst).Nodup)
    (o : SortingOrder) :
    List.Pairwise (fun a b : Entry => a.1 ≠ b.1) (sort_counts counts o) :=
  List.pairwise_map.mp (sort_counts_keys_nodup h o)

/-- Adjacent-pair form of `Count`-sortedness over a table with unique keys:
counts weakly decrease and equal counts are broken by strictly increasing
lines. -/
lemma count_order_chain {counts : List Entry} (h : (counts.map Prod.fst).Nodup) :
    List.Chain' (fun a b : Entry => b.2 ≤ a.2 ∧ (a.2 = b.2 → a.1 < b.1))
      (sort_counts counts .Count) := by
  have hpw := (sort_counts_count_sorted counts).and (sort_counts_fst_ne h .Count)
  refine (hpw.imp ?_).chain'
  intro a b hab
  obtain ⟨hlc, hne⟩ := hab
  rw [le_count_iff] at hlc
  rcases hlc with hlt | ⟨he, hle⟩
  · exact ⟨le_of_lt hlt, fun he => absurd (he ▸ hlt) (lt_irrefl _)⟩
  · exact ⟨le_of_eq he.symm, fun _ => lt_of_le_of_ne hle hne⟩

/-- Adjacent-pair form of `Key`-sortedness over a table with unique keys:
lines strictly increase. -/
lemma key_order_chain {counts : List Entry} (h : (counts.map Prod.fst).Nodup) :
    List.Chain' (fun a b : Entry => a.1 < b.1) (sort_counts counts .Key) := by
  have hpw := (sort_counts_key_sorted counts).and (sort_counts_fst_ne h .Key)
  refine (hpw.imp ?_).chain'
  intro a b hab
  obtain ⟨hlk, hne⟩ := hab
  rw [le_key_iff] at hlk
  rcases hlk with hlt | ⟨he, _⟩
  · exact hlt
  · exact absurd he hne

/-- Adjacent-pair form of `Key`-sortedness over an arbitrary entry list (the
comparator's count tie-break, unreachable from the frequency table, still
orders correctly). -/
lemma key_order_chain_general (counts : List Entry) :
    List.Chain' (fun a b : Entry => a.1 < b.1 ∨ (a.1 = b.1 ∧ b.2 ≤ a.2))
      (sort_counts counts .Key) :=
  ((sort_counts_key_sorted counts).imp (fun hab => le_key_iff.mp hab)).chain'

/-! ## Output writer, input resolver and `main` (lines 46-52, 66-99) -/

/-- The classification of a failed `writeln!`: the broken-pipe condition
versus every other write error. -/
inductive WriteError
  | brokenPipe
  | other
deriving DecidableEq

/-- The error with which the modelled `main` returns `Err`. -/
inductive ProgError
  | openErr
  | readErr
  | writeErr (e : WriteError)
deriving DecidableEq

/-- `fn top_n` behaviour of `main` lines 88-92:
`let n = config.top.unwrap_or_else(|| counts.len()); counts.iter().take(n)`. -/
def top_n (top : Option Nat) (counts : List Entry) : List Entry :=
  counts.take (top.getD counts.length)

/-- The output loop of `main` (lines 92-97), writing entry `i` with outcome
`writeRes i` and then consulting the SIGPIPE flag (`flag i`).  Returns the
result propagated by `writeln!(..)?` together with the entries actually
written.  A failed write aborts the loop with its error (the `?` operator);
after a successful write the loop breaks, without error, if the flag is
set. -/
def writeLoop (writeRes : Nat → Option WriteError) (flag : Nat → Bool) :
    List Entry → Nat → Except WriteError Unit × List Entry
  | [], _ => (.ok (), [])
  | e :: rest, i =>
      match writeRes i with
      | some err => (.error err, [])
      | none =>
          if flag i then (.ok (), [e])
          else
            let r := writeLoop writeRes flag rest (i + 1)
            (r.1, e :: r.2)

/-- The counting loop of `main` (lines 81-83) over the raw read results:
`for line in reader.lines() { *counter.entry(line?).or_insert(0) += 1 }`.
A read error aborts the loop (and the program) via `?`. -/
def countLoop {α : Type} [DecidableEq α] :
    List (Except Unit α) → List (α × Nat) → Except ProgError (List (α × Nat))
  | [], acc => .ok acc
  | .error _ :: _, _ => .error .readErr
  | .ok l :: rest, acc => countLoop rest (bump acc l)

/-- `fn main`, modelled over its environment: `input` is the result of
`create_reader` (`Err` = the file could not be opened, otherwise the list of
line-read results), `writeRes` gives the outcome of each `writeln!`, and
`flag` the SIGPIPE flag value at each check.  Returns `main`'s
`Result` (`Err` maps to a non-zero process exit with an error message) and
the list of entries written to standard output. -/
def runMain (sort_by : SortingOrder) (top : Option Nat)
    (input : Except Unit (List (Except Unit Line)))
    (writeRes : Nat → Option WriteError) (flag : Nat → Bool) :
    Except ProgError Unit × List Entry :=
  match input with
  | .error _ => (.error .openErr, [])
  | .ok rawLines =>
      match countLoop rawLines [] with
      | .error e => (.error e, [])
      | .ok counter =>
          let counts := sort_counts counter sort_by
          let r := writeLoop writeRes flag (top_n top counts) 0
          match r.1 with
          | .ok _ => (.ok (), r.2)
          | .error e => (.error (.writeErr e), r.2)

lemma countLoop_ok {α : Type} [DecidableEq α] (ls : List α) :
    ∀ acc : List (α × Nat),
      countLoop (ls.map Except.ok) acc = .ok (ls.foldl bump acc) := by
  induction ls with
  | nil => intro acc; rfl
  | cons l rest ih => intro acc; simpa [countLoop] using ih (bump acc l)

lemma writeLoop_all_ok (entries : List Entry) :
    ∀ i : Nat,
      writeLoop (fun _ => none) (fun _ => false) entries i = (.ok (), entries) := by
  induction entries with
  | nil => intro i; rfl
  | cons e rest ih => intro i; simp [writeLoop, ih (i + 1)]

/-- `runMain` on a successfully opened, error-free input with no write
failures and an untripped SIGPIPE flag: exit is clean and exactly the first
`top` sorted entries are written. -/
lemma runMain_happy (sort_by : SortingOrder) (top : Option Nat) (ls : List Line) :
    runMain sort_by top (.ok (ls.map .ok)) (fun _ => none) (fun _ => false) =
      (.ok (), top_n top (sort_counts (countLines ls) sort_by)) := by
  simp [runMain, countLoop_ok, countLines, writeLoop_all_ok]

/-! ## Line splitting (`BufRead::lines`, consumed at line 81) -/

/-- `BufRead::read_line` iterated: splits the raw input into chunks, each one
including the newline that terminated it; a final chunk without a newline is
kept.  `acc` carries the current chunk in reverse. -/
def splitNlAux : List Char → List Char → List (List Char)
  | acc, [] => if acc = [] then [] else [acc.reverse]
  | acc, c :: cs =>
      if c = '\n' then (acc.reverse ++ ['\n']) :: splitNlAux [] cs
      else splitNlAux (c :: acc) cs

/-- The raw newline-terminated records of an input byte sequence. -/
def splitNl (input : List Char) : List (List Char) := splitNlAux [] input

/-- The per-record trimming done by `BufRead::lines`: pop a trailing `'\n'`,
and then a trailing `'\r'` if one is exposed (so a CRLF line ending is removed
whole). -/
def stripLine (s : List Char) : List Char :=
  if s.getLast? = some '\n' then
    let t := s.dropLast
    if t.getLast? = some '\r' then t.dropLast else t
  else s

/-- `reader.lines()`: the sequence of line strings produced from a raw
input. -/
def rustLines (input : List Char) : List Line := (splitNl input).map stripLine

/-- The frequency table `main` builds over a raw input byte sequence. -/
def countRaw (input : List Char) : List (Line × Nat) := countLines (rustLines input)

/-- Modelled from the claim's words: removing only the trailing newline
delimiter of a record, with no other normalization. -/
def newlineStrip (s : List Char) : List Char :=
  if s.getLast? = some '\n' then s.dropLast else s

/-- Modelled from the amended claim's words: a record's trailing line
terminator - a CRLF sequence or a lone LF - is removed, by cases on the end of
the record. -/
def crlfStrip (s : List Char) : List Char :=
  match s.reverse with
  | '\n' :: '\r' :: rest => rest.reverse
  | '\n' :: rest => rest.reverse
  | _ => s

lemma crlfStrip_not_nl {xs : List Char} {x : Char} (hx : ¬ x = '\n') :
    crlfStrip (xs ++ [x]) = xs ++ [x] := by
  unfold crlfStrip
  rw [List.reverse_append]
  simp only [List.reverse_singleton, List.singleton_append]
  split <;> simp_all

lemma crlfStrip_nl (xs : List Char) :
    crlfStrip (xs ++ ['\n']) =
      if xs.getLast? = some '\r' then xs.dropLast else xs := by
  unfold crlfStrip
  rw [List.reverse_append]
  simp only [List.reverse_singleton, List.singleton_append]
  rcases hxs : xs.reverse with _ | ⟨y, t⟩
  · obtain rfl : xs = [] := List.reverse_eq_nil_iff.mp hxs
    simp
  · have hxs' : xs = t.reverse ++ [y] := by
      rw [← List.reverse_reverse xs, hxs]
      simp
    by_cases hy : y = '\r'
    · subst hy
      rw [hxs']
      simp [List.getLast?_concat, List.dropLast_concat]
    · rw [hxs']
      have h1 : (t.reverse ++ [y]).getLast? = some y := List.getLast?_concat _
      have h2 : ¬ (t.reverse ++ [y]).getLast? = some '\r' := by
        rw [h1]
        simp [hy]
      rw [if_neg h2]
      split <;> simp_all

lemma stripLine_eq_crlfStrip (s : List Char) : stripLine s = crlfStrip s := by
  refine List.reverseRecOn (motive := fun s => stripLine s = crlfStrip s) s ?_ ?_
  · rfl
  · intro xs x _
    by_cases hx : x = '\n'
    · subst hx
      rw [crlfStrip_nl]
      unfold stripLine
      simp [List.getLast?_concat, List.dropLast_concat]
    · rw [crlfStrip_not_nl hx]
      unfold stripLine
      rw [List.getLast?_concat]
      simp [hx]

/-! ## The claims -/

/-- Claim C1, code bug: with one entry to print and a consumer that has closed
the pipe - so the first `writeln!` fails with the broken-pipe error while the
SIGPIPE flag is set - the program takes the error exit path (`Err`, a non-zero
exit with an error message), not the claimed clean zero exit:
`writeln!(handle, ..)?` propagates the broken-pipe error before the flag is
consulted.  A write failure other than broken pipe errors out the same way. -/
theorem C1_broken_pipe_error_exit :
    runMain .Count .none (.ok [.ok ['a']])
        (fun _ => some .brokenPipe) (fun _ => true) =
      (.error (.writeErr .brokenPipe), []) ∧
    runMain .Count .none (.ok [.ok ['a']])
        (fun _ => some .other) (fun _ => false) =
      (.error (.writeErr .other), []) :=
  ⟨rfl, rfl⟩

/-- Claim C2: after the counting loop - and invariantly after each iteration,
i.e. on every prefix of the input - the table maps each distinct line seen to
its number of occurrences, each distinct line appears exactly once as a key,
and the counts sum to the number of lines read. -/
theorem C2_frequency_table_invariant (ls : List Line) :
    TableInv (countLines ls) ls ∧
    ∀ i : Nat, TableInv (countLines (ls.take i)) (ls.take i) :=
  ⟨countLines_tableInv ls, fun i => countLines_tableInv (ls.take i)⟩

/-- Claim C3: in `Count` order, every pair of adjacent output entries has
weakly decreasing counts, and adjacent entries of equal count have strictly
increasing lines. -/
theorem C3_count_order_adjacent (ls : List Line) :
    List.Chain' (fun a b : Entry => b.2 ≤ a.2 ∧ (a.2 = b.2 → a.1 < b.1))
      (sort_counts (countLines ls) .Count) :=
  count_order_chain (countLines_keys_nodup ls)

/-- Claim C4: with limit `N` the output has `min N (number of entries)`
entries - all of them when `N` is absent - and equals the first `N` entries of
the full sorted sequence element for element; an error-free run prints exactly
`top_n top` of the sorted counts. -/
theorem C4_top_truncation (counts : List Entry) (top : Option Nat) :
    (top_n top counts).length = min (top.getD counts.length) counts.length ∧
    (∀ i : Nat, i < (top_n top counts).length →
      (top_n top counts)[i]? = counts[i]?) ∧
    (top = .none → top_n top counts = counts) ∧
    (∀ (sort_by : SortingOrder) (ls : List Line),
      runMain sort_by top (.ok (ls.map .ok)) (fun _ => none) (fun _ => false) =
        (.ok (), top_n top (sort_counts (countLines ls) sort_by))) := by
  refine ⟨?_, ?_, ?_, fun sort_by ls => runMain_happy sort_by top ls⟩
  · simp [top_n, List.length_take]
  · intro i hi
    rw [top_n, List.getElem?_take]
    rw [top_n, List.length_take] at hi
    have h : i < top.getD counts.length := lt_of_lt_of_le hi (min_le_left _ _)
    simp [h]
  · intro h
    subst h
    simp [top_n, List.take_length]

/-- Witness for C4 at a concrete input: the first printed entry under
`--top 1` is the first entry of the sorted sequence. -/
theorem C4_top_truncation_witness :
    (top_n (some 1) [(['b'], 3), (['a'], 2)])[0]? =
      [((['b'] : Line), 3), (['a'], 2)][0]? :=
  (C4_top_truncation [(['b'], 3), (['a'], 2)] (some 1)).2.1 0 (by decide)

/-- Claim C5: in `Key` order the output's lines strictly increase (the table's
lines are unique); moreover on an arbitrary entry list - even one with
duplicated lines, which the frequency table never produces - the comparator
still orders adjacent entries by line ascending with count descending as the
tie-break, so the dead secondary branch misorders nothing. -/
theorem C5_key_order_adjacent :
    (∀ ls : List Line,
      List.Chain' (fun a b : Entry => a.1 < b.1)
        (sort_counts (countLines ls) .Key)) ∧
    (∀ counts : List Entry,
      List.Chain' (fun a b : Entry => a.1 < b.1 ∨ (a.1 = b.1 ∧ b.2 ≤ a.2))
        (sort_counts counts .Key)) :=
  ⟨fun ls => key_order_chain (countLines_keys_nodup ls), key_order_chain_general⟩

/-- Claim C6: over entries with distinct lines, each composite comparator
admits exactly one sorted arrangement: `sort_counts` returns a comparator-
sorted permutation of its input, and every comparator-sorted permutation -
hence the result of the parallel unstable sort under any work partitioning -
is equal to it. -/
theorem C6_parallel_sort_refinement (counts : List Entry)
    (_hnd : (counts.map Prod.fst).Nodup) :
    ((sort_counts counts .Key).Perm counts ∧
      List.Pairwise le_key (sort_counts counts .Key) ∧
      ∀ l : List Entry, l.Perm counts → List.Pairwise le_key l →
        l = sort_counts counts .Key) ∧
    ((sort_counts counts .Count).Perm counts ∧
      List.Pairwise le_count (sort_counts counts .Count) ∧
      ∀ l : List Entry, l.Perm counts → List.Pairwise le_count l →
        l = sort_counts counts .Count) := by
  refine ⟨⟨sort_counts_perm counts .Key, sort_counts_key_sorted counts, ?_⟩,
    ⟨sort_counts_perm counts .Count, sort_counts_count_sorted counts, ?_⟩⟩
  · intro l hp hs
    exact sorted_key_unique hp (sort_counts_perm counts .Key) hs
      (sort_counts_key_sorted counts)
  · intro l hp hs
    exact sorted_count_unique hp (sort_counts_perm counts .Count) hs
      (sort_counts_count_sorted counts)

/-- Witness for C6 at a concrete input: the one sorted arrangement of
\x7b b: 2, a: 1 \x7d under the `Key` comparator. -/
theorem C6_parallel_sort_refinement_witness :
    [((['a'] : Line), 1), (['b'], 2)] = sort_counts [(['b'], 2), (['a'], 1)] .Key :=
  (C6_parallel_sort_refinement [(['b'], 2), (['a'], 1)] (by decide)).1.2.2
    [(['a'], 1), (['b'], 2)] (by decide) (by decide)

/-- Claim C7: for `Key` and `Count` orders the printed entries are a function
of the multiset of table entries alone - two runs over any two iteration
orders of the same frequency table produce the same output - while for `None`
two iteration orders of the same table can produce different outputs. -/
theorem C7_two_run_determinism :
    (∀ (order : SortingOrder) (ls : List Line) (top : Option Nat)
        (p₁ p₂ : List Entry),
      (order = .Key ∨ order = .Count) →
      p₁.Perm (countLines ls) → p₂.Perm (countLines ls) →
      top_n top (sort_counts p₁ order) = top_n top (sort_counts p₂ order)) ∧
    (∃ (ls : List Line) (p₁ p₂ : List Entry),
      p₁.Perm (countLines ls) ∧ p₂.Perm (countLines ls) ∧
      top_n .none (sort_counts p₁ .None) ≠ top_n .none (sort_counts p₂ .None)) := by
  constructor
  · rintro order ls top p₁ p₂ (rfl | rfl) h₁ h₂
    · rw [sorted_key_unique ((sort_counts_perm p₁ .Key).trans h₁)
        ((sort_counts_perm p₂ .Key).trans h₂)
        (sort_counts_key_sorted p₁) (sort_counts_key_sorted p₂)]
    · rw [sorted_count_unique ((sort_counts_perm p₁ .Count).trans h₁)
        ((sort_counts_perm p₂ .Count).trans h₂)
        (sort_counts_count_sorted p₁) (sort_counts_count_sorted p₂)]
  · exact ⟨[['a'], ['b']], [(['a'], 1), (['b'], 1)], [(['b'], 1), (['a'], 1)],
      by decide, by decide, by decide⟩

/-- Witness for C7 at a concrete input: two iteration orders of the table
\x7b a: 1, b: 1 \x7d print identically under `Count` order. -/
theorem C7_two_run_determinism_witness :
    top_n .none (sort_counts [((['a'] : Line), 1), (['b'], 1)] .Count) =
      top_n .none (sort_counts [(['b'], 1), (['a'], 1)] .Count) :=
  C7_two_run_determinism.1 .Count [['a'], ['b']] .none
    [(['a'], 1), (['b'], 1)] [(['b'], 1), (['a'], 1)]
    (Or.inr rfl) (by decide) (by decide)

/-- Claim C8 counterexample: the raw records of the input a CR LF a LF are not
byte-identical after removing only the trailing newline, yet `lines()` maps
both to the key consisting of the single character a, and the program counts
them under one key: the table for that input is \x7b a: 2 \x7d. -/
theorem C8_newline_only_counterexample :
    stripLine ['a', '\r', '\n'] = stripLine ['a', '\n'] ∧
    newlineStrip ['a', '\r', '\n'] ≠ newlineStrip ['a', '\n'] ∧
    splitNl ['a', '\r', '\n', 'a', '\n'] = [['a', '\r', '\n'], ['a', '\n']] ∧
    countRaw ['a', '\r', '\n', 'a', '\n'] = [(['a'], 2)] := by
  refine ⟨by decide, by decide, by decide, by decide⟩

/-- Claim C8 as amended: the counter keys two records together iff they are
byte-identical after removing the trailing line terminator - a CRLF sequence
or a lone LF - and no other normalization is applied: the keys are exactly the
records with `stripLine` applied, and `stripLine` coincides with the
terminator-removal `crlfStrip`. -/
theorem C8_crlf_key_equality :
    (∀ input : List Char, rustLines input = (splitNl input).map stripLine) ∧
    (∀ s : List Char, stripLine s = crlfStrip s) ∧
    (∀ c₁ c₂ : List Char,
      stripLine c₁ = stripLine c₂ ↔ crlfStrip c₁ = crlfStrip c₂) :=
  ⟨fun _ => rfl, stripLine_eq_crlfStrip, fun c₁ c₂ => by
    rw [stripLine_eq_crlfStrip, stripLine_eq_crlfStrip]⟩

/-- Claim C9: if the input file cannot be opened, the program returns the open
error (a non-zero exit) before any counting, and writes nothing to standard
output, whatever the flags and write outcomes would have been. -/
theorem C9_open_failure_no_output (sort_by : SortingOrder) (top : Option Nat)
    (writeRes : Nat → Option WriteError) (flag : Nat → Bool) :
    runMain sort_by top (.error ()) writeRes flag = (.error .openErr, []) :=
  rfl

/-- Claim C10: invoked with `--top 0` on any error-free input, the program
writes no entries and exits cleanly, for every write environment and flag
history; counting and sorting still complete, and the empty output is the
zero-length truncation of the fully sorted table. -/
theorem C10_top_zero_empty_output (sort_by : SortingOrder) (ls : List Line)
    (writeRes : Nat → Option WriteError) (flag : Nat → Bool) :
    runMain sort_by (some 0) (.ok (ls.map .ok)) writeRes flag = (.ok (), []) ∧
    top_n (some 0) (sort_counts (countLines ls) sort_by) = [] := by
  constructor
  · simp [runMain, countLoop_ok, top_n, writeLoop]
  · simp [top_n]

end CountProg
